import Mathlib

/-!
Verification of the kairu-py ACS container reader against its specification.

The definitions below are a shallow embedding of the Python sources:
  * `src/kairu/buffer.py`              — the `Buffer` class,
  * `src/kairu/_image_decompression.py` — the LZ-style codec and image reshape,
  * `src/kairu/structs.py`             — palette conversion, frames, branches,
                                          animation records.

Modelling conventions:
  * Python `bytes` / `memoryview` values are `List Nat` (each entry < 256 in
    well-formed inputs; the reader never depends on the bound).
  * Python exceptions (`IndexError`, `ValueError`, `AssertionError`,
    `NotImplementedError`, `bitstring.ReadError`) are `Except String` /
    `Option` failures; a function that cannot raise is total.
  * Python strings decoded from the container are lists of code units
    (`KStr := List Nat`).  `str.upper` is modelled on the ASCII range, which
    is the range exercised by ACS animation names.
  * `logging` calls carry no data flow; where a claim is about whether a
    warning is emitted, the embedded function returns the warning condition
    as an explicit `Bool`.
-/

namespace Kairu

/-- Little-endian unsigned interpretation of a byte list, the semantics of
Python `int.from_bytes(b, 'little')` (an empty list decodes to 0). -/
def fromBytesLE : List Nat → Nat
  | [] => 0
  | b :: rest => b + 256 * fromBytesLE rest

/-- Little-endian signed interpretation, the semantics of
`int.from_bytes(b, 'little', signed=True)`. -/
def fromBytesLEsigned (l : List Nat) : Int :=
  let u := fromBytesLE l
  if 2 * u < 2 ^ (8 * l.length) then (u : Int) else (u : Int) - 2 ^ (8 * l.length)

/-- Embedding of `buffer.py`'s `Buffer`: a byte view `mv`, the absolute
backing array `root` (Python `_root`), the absolute offset of the view
(`_abs_offset`) and the read cursor `pos`. -/
structure Buffer where
  mv : List Nat
  root : List Nat
  absOffset : Nat
  pos : Nat
deriving Repr, DecidableEq

namespace Buffer

/-- Embedding of `Buffer.read`: read one byte at the cursor; Python raises
`IndexError` at or past the end of the view. -/
def read (b : Buffer) : Except String (Nat × Buffer) :=
  if h : b.pos < b.mv.length then
    .ok (b.mv.get ⟨b.pos, h⟩, { b with pos := b.pos + 1 })
  else
    .error "IndexError"

/-- Embedding of `Buffer.read_bytes`: the Python slice `mv[pos:pos+length]`
silently truncates at the end of the view, and `pos` advances by the full
`length` regardless. -/
def read_bytes (b : Buffer) (length : Nat) : List Nat × Buffer :=
  ((b.mv.drop b.pos).take length, { b with pos := b.pos + length })

/-- Embedding of `Buffer.read_integer` (unsigned form). -/
def read_integer (b : Buffer) (length : Nat) : Nat × Buffer :=
  let (data, b2) := b.read_bytes length
  (fromBytesLE data, b2)

/-- Embedding of `Buffer.read_integer` with `signed=True`. -/
def read_integer_signed (b : Buffer) (length : Nat) : Int × Buffer :=
  let (data, b2) := b.read_bytes length
  (fromBytesLEsigned data, b2)

/-- Embedding of `Buffer.read_ushort`. -/
def read_ushort (b : Buffer) : Nat × Buffer := b.read_integer 2

/-- Embedding of `Buffer.read_ulong`. -/
def read_ulong (b : Buffer) : Nat × Buffer := b.read_integer 4

/-- Embedding of `Buffer.skip`. -/
def skip (b : Buffer) (count : Nat) : Buffer := { b with pos := b.pos + count }

/-- Reads `n` two-byte code units (the loop body of `Buffer.read_string`). -/
def readUnits : Nat → Buffer → List Nat × Buffer
  | 0, b => ([], b)
  | n + 1, b =>
    let (u, b2) := b.read_ushort
    let (rest, b3) := readUnits n b2
    (u :: rest, b3)

/-- Embedding of `Buffer.read_string`: 4-byte character count, that many
2-byte code units, then a 2-byte null terminator skipped only when the
count is positive.  The result is the list of code units. -/
def read_string (b : Buffer) : List Nat × Buffer :=
  let (length, b2) := b.read_ulong
  let (string, b3) := readUnits length b2
  (string, if length > 0 then b3.skip 2 else b3)

/-- Runs an element reader `length` times (the comprehension inside
`Buffer._read_list`).  The source's optional `length` keyword argument,
detected by introspection, is modelled by the caller pre-applying the
length to the reader. -/
def readN {α : Type} (elemReader : Buffer → Except String (α × Buffer)) :
    Nat → Buffer → Except String (List α × Buffer)
  | 0, b => .ok ([], b)
  | n + 1, b => do
    let (x, b2) ← elemReader b
    let (xs, b3) ← readN elemReader n b2
    .ok (x :: xs, b3)

/-- Embedding of `Buffer._read_list`: the corruption guard
`if length >= 65536: raise ValueError` runs before any element is read. -/
def _read_list {α : Type} (elemReader : Buffer → Except String (α × Buffer))
    (length : Nat) (b : Buffer) : Except String (List α × Buffer) :=
  if length ≥ 65536 then .error "ValueError: length too large"
  else readN elemReader length b

/-- Count-field width selector of `Buffer.read_list`. -/
inductive CountType | byte | ushort | ulong
deriving Repr, DecidableEq

/-- Embedding of `Buffer.read_list`: read the length in the width given by
`countType` (the 1-byte form uses `read` and can raise), clamp it with the
optional `limit`, then delegate to `_read_list`. -/
def read_list {α : Type} (elemReader : Buffer → Except String (α × Buffer))
    (countType : CountType) (limit : Option Nat) (b : Buffer) :
    Except String (List α × Buffer) := do
  let (length, b2) ←
    match countType with
    | .byte => b.read
    | .ushort => .ok b.read_ushort
    | .ulong => .ok b.read_ulong
  let length := match limit with
    | some l => min l length
    | none => length
  _read_list elemReader length b2

/-- Embedding of `Buffer.locator` (default `sized=True`): read absolute
offset and size, raise `IndexError` when `offset + size` exceeds the
absolute backing array, otherwise return the view
`root[address : address + size]` rooted at the same backing array.
The Python method mutates `self` (the two `read_ulong`s advance `pos`),
so the embedding returns the view together with the advanced receiver. -/
def locator (b : Buffer) (sized : Bool := true) :
    Except String (Buffer × Buffer) :=
  let (address, b2) := b.read_ulong
  let (size, b3) := b2.read_ulong
  if address + size > b3.root.length then
    .error "IndexError: ACSLOCATOR out of range"
  else if sized then
    .ok (⟨(b3.root.drop address).take size, b3.root, address, 0⟩, b3)
  else
    .ok (⟨b3.root.drop address, b3.root, address, 0⟩, b3)

end Buffer

/-! Embedding of `_image_decompression.py`. -/

/-- Embedding of `_reverse_bits`: reverse the bit order of one byte by the
three shift/mask swaps of the source. -/
def _reverse_bits (b : Nat) : Nat :=
  let b := (b >>> 4 &&& 0b00001111) ||| (b <<< 4 &&& 0b11110000)
  let b := (b >>> 2 &&& 0b00110011) ||| (b <<< 2 &&& 0b11001100)
  (b >>> 1 &&& 0b01010101) ||| (b <<< 1 &&& 0b10101010)

/-- Most-significant-bit-first bit list of one byte, the order in which
`bitstring.BitStream` yields the bits of a byte. -/
def byteBitsMSB (b : Nat) : List Bool :=
  [b >>> 7 &&& 1 = 1, b >>> 6 &&& 1 = 1, b >>> 5 &&& 1 = 1, b >>> 4 &&& 1 = 1,
   b >>> 3 &&& 1 = 1, b >>> 2 &&& 1 = 1, b >>> 1 &&& 1 = 1, b &&& 1 = 1]

/-- Embedding of `_BitStream.read_rev`: read `count` bits, the first read
bit landing in the least significant output position; `none` models the
`bitstring.ReadError` raised when the stream runs out. -/
def readRev : Nat → List Bool → Option (Nat × List Bool)
  | 0, bits => some (0, bits)
  | _ + 1, [] => none
  | count + 1, bit :: bits =>
    (readRev count bits).map fun vr => ((if bit then 1 else 0) + 2 * vr.1, vr.2)

/-- Embedding of `_BitStream.count_consecutive_ones`: count up to `limit`
consecutive 1-bits; a terminating 0-bit is consumed, and running out of
bits mid-count raises (`none`). -/
def countOnes : Nat → List Bool → Option (Nat × List Bool)
  | 0, bits => some (0, bits)
  | _ + 1, [] => none
  | limit + 1, bit :: bits =>
    if bit then (countOnes limit bits).map fun cr => (cr.1 + 1, cr.2)
    else some (0, bits)

/-- Element read `out[idx]` on a NumPy 1-D array of length `out.length`:
negative indices wrap once from the end, and out-of-range raises. -/
def npGet (out : List Nat) (idx : Int) : Option Nat :=
  let j : Int := if idx < 0 then idx + out.length else idx
  if h : 0 ≤ j ∧ j < out.length then
    some (out.get ⟨j.toNat, by omega⟩)
  else none

/-- Element write `out[idx] = v` with the same NumPy index semantics. -/
def npSet (out : List Nat) (idx : Int) (v : Nat) : Option (List Nat) :=
  let j : Int := if idx < 0 then idx + out.length else idx
  if 0 ≤ j ∧ j < out.length then some (out.set j.toNat v)
  else none

/-- The copy loop of `decompress`
(`for i in range(n): out[out_pos + i] = out[source_idx + i]`), one byte at
a time so that self-overlapping copies re-read freshly written output. -/
def copyBytes : List Nat → Int → Nat → Nat → Option (List Nat)
  | out, _, _, 0 => some out
  | out, src, dst, n + 1 => do
    let v ← npGet out src
    let out2 ← npSet out dst v
    copyBytes out2 (src + 1) (dst + 1) n

/-- The `_VALUE_BIT_COUNT` tuple of the source. -/
def _VALUE_BIT_COUNT : List Nat := [6, 9, 12, 20]

/-- The `_OFFSET_TO_ADD` tuple of the source. -/
def _OFFSET_TO_ADD : List Nat := [1, 65, 577, 4673]

/-- Tuple indexing `_VALUE_BIT_COUNT[seq_bits_1]` (the unary run is at
most 3, so the index is always in range). -/
def valueBitCount (k : Nat) : Nat := _VALUE_BIT_COUNT.getD k 0

/-- Tuple indexing `_OFFSET_TO_ADD[seq_bits_1]`. -/
def offsetToAdd (k : Nat) : Nat := _OFFSET_TO_ADD.getD k 0

/-- The `while stream.pos < len(stream)` loop of `decompress`, with the
output array, write position `outPos` and `total_decoded_count` threaded
explicitly.  `fuel` dominates the loop count (each iteration consumes at
least the flag bit, so `bits.length + 1` fuel always suffices); `none`
models any raised exception (`ReadError`, `AssertionError`, `IndexError`).
The sentinel `break` and normal loop exit both return the current output
and count, from which `decompress` takes the decoded prefix. -/
def decompressLoop : Nat → List Bool → List Nat → Nat → Nat →
    Option (List Nat × Nat)
  | 0, _, _, _, _ => none
  | _ + 1, [], out, _, total => some (out, total)
  | fuel + 1, flag :: bits1, out, outPos, total =>
    if flag then do
      -- back-reference copy
      let (seqBits1, bits2) ← countOnes 3 bits1
      let valBitCount := valueBitCount seqBits1
      let (offsetField, bits3) ← readRev valBitCount bits2
      if valBitCount = 20 ∧ offsetField = 0xFFFFF then
        some (out, total)
      else do
        let bytesToBeDecoded := if valBitCount = 20 then 3 else 2
        let offset := offsetField + offsetToAdd seqBits1
        let (seqBits2, bits4) ← countOnes 12 bits3
        if seqBits2 = 12 then
          none
        else do
          let (add2, bits5) ← readRev seqBits2 bits4
          let n := bytesToBeDecoded + ((1 <<< seqBits2) - 1) + add2
          let sourceIdx : Int := (total : Int) - (offset : Int)
          let out2 ← copyBytes out sourceIdx outPos n
          decompressLoop fuel bits5 out2 (outPos + n) (total + n)
    else do
      -- one uncompressed byte
      let (byte, bits2) ← readRev 8 bits1
      let out2 ← npSet out outPos byte
      decompressLoop fuel bits2 out2 (outPos + 1) (total + 1)

/-- Embedding of `decompress`: reverse the bits of every input byte, treat
the result as an MSB-first bitstream, discard the 8 header bits, run the
decode loop over a zero-filled output of `bufferSize` bytes, and return
the decoded prefix `out[:total_decoded_count]`. -/
def decompress (data : List Nat) (bufferSize : Nat) : Option (List Nat) := do
  let bits := data.flatMap fun b => byteBitsMSB (_reverse_bits b)
  let (_, bits1) ← readRev 8 bits
  let (out, total) ←
    decompressLoop (bits1.length + 1) bits1 (List.replicate bufferSize 0) 0 0
  some (out.take total)

/-- Cuts `h` rows of `w` elements off the front of `l`. -/
def buildRows : List Nat → Nat → Nat → List (List Nat)
  | _, 0, _ => []
  | l, hh + 1, w => l.take w :: buildRows (l.drop w) hh w

/-- NumPy `array.reshape((h, w))`: succeeds exactly when the flat length is
`h * w`, cutting the list into `h` rows of `w`. -/
def reshape (l : List Nat) (h w : Nat) : Option (List (List Nat)) :=
  if l.length = h * w then some (buildRows l h w) else none

/-- Embedding of `decompress_paletted_image`: decompress into a buffer of
`((w + 3) & 0xfc) * h` bytes (or take the raw bytes when not compressed),
truncate the flat byte stream to the first `w * h` bytes when longer,
reshape into `h` rows of `w`, and flip vertically (`np.flip(..., axis=0)`
is row reversal). -/
def decompress_paletted_image (data : List Nat) (size : Nat × Nat)
    (compressed : Bool := true) (extra_width : Nat := 0) :
    Option (List (List Nat)) := do
  let w := size.1 + extra_width
  let h := size.2
  let decompressed ← if compressed then decompress data (((w + 3) &&& 0xfc) * h)
                     else some data
  let expectedLen := w * h
  let decompressed := if decompressed.length > expectedLen
                      then decompressed.take expectedLen else decompressed
  let rows ← reshape decompressed h w
  some rows.reverse

/-! Embedding of `structs.py`. -/

/-- Strings decoded from the container, as lists of UTF-16 code units. -/
abbrev KStr := List Nat

/-- Python `str.upper` on one code unit, restricted to the ASCII range
exercised by ACS animation names. -/
def upperCode (c : Nat) : Nat := if 97 ≤ c ∧ c ≤ 122 then c - 32 else c

/-- Python `str.upper` on a decoded container string. -/
def upperStr (s : KStr) : KStr := s.map upperCode

/-- Embedding of `FrameImage`. -/
structure FrameImage where
  image_idx : Nat
  offset : Int × Int
deriving Repr, DecidableEq

/-- Embedding of the `frame_image` reader. -/
def frame_image (b : Buffer) : Except String (FrameImage × Buffer) :=
  let (idx, b2) := b.read_ulong
  let (x, b3) := b2.read_integer_signed 2
  let (y, b4) := b3.read_integer_signed 2
  .ok (⟨idx, (x, y)⟩, b4)

/-- Embedding of `BranchInfo`. -/
structure BranchInfo where
  jump_target_idx : Nat
  prob_percent : Nat
deriving Repr, DecidableEq

/-- Embedding of the `branch_info` reader. -/
def branch_info (b : Buffer) : Except String (BranchInfo × Buffer) :=
  let (target, b2) := b.read_ushort
  let (prob, b3) := b2.read_ushort
  .ok (⟨target, prob⟩, b3)

/-- Embedding of `FrameInfo` (the decoded fields). -/
structure FrameInfo where
  frame_images : List FrameImage
  audio_idx : Nat
  duration_centiseconds : Nat
  exit_index : Int
  branch_infos : List BranchInfo
deriving Repr, DecidableEq

/-- The accumulation loop of `FrameInfo.pick_jump_destination`, carrying
`prob_sum` explicitly. -/
def pickLoop (probSum : Nat) (randValue : Nat) :
    List BranchInfo → Option Nat
  | [] => none
  | branch :: rest =>
    let probSum := probSum + branch.prob_percent
    if randValue < probSum then some branch.jump_target_idx
    else pickLoop probSum randValue rest

/-- Embedding of `FrameInfo.pick_jump_destination`: walk the branches in
declared order accumulating probabilities; return the first jump target
whose cumulative probability exceeds `randValue`, else `None`. -/
def FrameInfo.pick_jump_destination (f : FrameInfo) (randValue : Nat) :
    Option Nat :=
  pickLoop 0 randValue f.branch_infos

/-- Embedding of the `frame_info` reader (`FrameInfo.__init__`): image
list (ushort count), audio index, duration, signed exit index, branch
list (byte count), then a trailing flag byte that must be 0 — a positive
value is the unsupported mouth-overlay `NotImplementedError`. -/
def frame_info (b : Buffer) : Except String (FrameInfo × Buffer) := do
  let (images, b2) ← Buffer.read_list frame_image .ushort none b
  let (audio, b3) := b2.read_ushort
  let (duration, b4) := b3.read_ushort
  let (exitIdx, b5) := b4.read_integer_signed 2
  let (branches, b6) ← Buffer.read_list branch_info .byte none b5
  let (overlay, b7) ← b6.read
  if overlay > 0 then .error "NotImplementedError: mouth overlay"
  else .ok (⟨images, audio, duration, exitIdx, branches⟩, b7)

/-- Embedding of `AnimInfo` (the decoded fields). -/
structure AnimInfo where
  name : KStr
  transition_type : Nat
  return_anim_name : KStr
  frames : List FrameInfo
deriving Repr, DecidableEq

/-- Embedding of `AnimInfo.__init__`: name string, transition byte,
return-animation name string, frame list (ushort count). -/
def animInfoInit (b : Buffer) : Except String (AnimInfo × Buffer) := do
  let (name, b2) := b.read_string
  let (transition, b3) ← b2.read
  let (returnName, b4) := b3.read_string
  let (frames, b5) ← Buffer.read_list frame_info .ushort none b4
  .ok (⟨name, transition, returnName, frames⟩, b5)

/-- Embedding of the `anim_info` reader: read the outer name, decode the
record from its locator sub-view, and compare `name.upper()` against the
decoded inner name.  The source only logs on mismatch; the emitted-warning
condition is returned as the `Bool` component, and the decoded record (the
inner name included) is returned unchanged. -/
def anim_info (buf : Buffer) : Except String (Bool × AnimInfo × Buffer) := do
  let (name, buf2) := buf.read_string
  let (sub, buf3) ← buf2.locator
  let (info, _) ← animInfoInit sub
  let upper_name := upperStr name
  .ok (upper_name ≠ info.name, info, buf3)

/-- Embedding of the palette conversion of `CharacterInfo.__init__`
(structs.py lines 70–76), as a function of the decoded source palette rows
(4 bytes each, BGR plus one ignored byte) and the transparency index:
`np.full_like(palette, 255)` followed by the three column assignments
builds the BGR→RGB reorder with alpha 255, and the final row assignment
`self.palette[self.transparency_index, :] = 0` zeroes the whole row. -/
def convertPalette (srcRows : List (List Nat)) (transparency_index : Nat) :
    List (List Nat) :=
  let reordered := srcRows.map fun row =>
    [row.getD 2 0, row.getD 1 0, row.getD 0 0, 255]
  reordered.set transparency_index [0, 0, 0, 0]

/-! Claim-side definitions, written from the words of the specification to
be compared against the embedded source functions. -/

/-- Reconstruction as claim C2 words it: the byte stream is `h` rows of
`(w + 3) & ~3`-byte stride (that bound also sizing the decompression
output), each row is restricted to its first `w` bytes, and the rows are
flipped vertically. -/
def claimedStrideReconstruct (data : List Nat) (size : Nat × Nat)
    (compressed : Bool) (extra_width : Nat) : Option (List (List Nat)) := do
  let w := size.1 + extra_width
  let h := size.2
  let stride := (w + 3) / 4 * 4
  let dec ← if compressed then decompress data (stride * h) else some data
  let rows ← reshape dec h stride
  some ((rows.map fun row => row.take w)).reverse

/-- The behaviour `decompress_paletted_image` actually implements (the
amended form of claim C2): the decompression output bound is
`((w + 3) & 0xfc) * h`, the flat decompressed byte stream is truncated to
its first `w * h` bytes when longer (failing when shorter), cut into `h`
rows of `w` consecutive bytes with no per-row stride padding, and the
rows are flipped vertically (row `r` of the result is the flat slice
starting at `(h - 1 - r) * w`). -/
def flatReconstruct (data : List Nat) (size : Nat × Nat)
    (compressed : Bool) (extra_width : Nat) : Option (List (List Nat)) := do
  let w := size.1 + extra_width
  let h := size.2
  let dec ← if compressed then decompress data (((w + 3) &&& 0xfc) * h)
            else some data
  let flat := if dec.length > w * h then dec.take (w * h) else dec
  if flat.length = h * w then
    some ((List.range h).map fun r => (flat.drop ((h - 1 - r) * w)).take w)
  else none

/-- Cumulative branch probability: the sum of the first `i + 1` branch
probabilities, the quantity the claim about branch selection compares the
drawn value against. -/
def cumProb (bs : List BranchInfo) (i : Nat) : Nat :=
  ((bs.take (i + 1)).map BranchInfo.prob_percent).sum

/-- A concrete animation record whose outer name and inner name are both
the single code unit 97 (lowercase letter a): outer string `[1,0,0,0,
97,0, 0,0]`, locator `(16, 15)`, inner record at offset 16 with name
`"a"`, transition byte 2, empty return name and zero frames. -/
def c9Root : List Nat :=
  [1, 0, 0, 0, 97, 0, 0, 0,
   16, 0, 0, 0, 15, 0, 0, 0,
   1, 0, 0, 0, 97, 0, 0, 0, 2, 0, 0, 0, 0, 0, 0]

/-- The same record with the inner name stored as code unit 65
(uppercase letter A) instead. -/
def c9RootUpper : List Nat :=
  [1, 0, 0, 0, 97, 0, 0, 0,
   16, 0, 0, 0, 15, 0, 0, 0,
   1, 0, 0, 0, 65, 0, 0, 0, 2, 0, 0, 0, 0, 0, 0]

/-! Bit-level encoders: the exact input shapes consumed by the codec's
read primitives, used to quantify over well-formed compressed streams. -/

/-- The bit pattern that `read_rev n` decodes to `v`: the bits of `v`,
least significant first. -/
def encodeRev : Nat → Nat → List Bool
  | 0, _ => []
  | n + 1, v => (v % 2 = 1) :: encodeRev n (v / 2)

/-- The bit pattern that `count_consecutive_ones limit` decodes to `k`:
`k` 1-bits, then a terminating 0-bit unless the limit was reached. -/
def encodeUnary (k limit : Nat) : List Bool :=
  List.replicate k true ++ if k < limit then [false] else []

theorem encodeRev_length (n : Nat) : ∀ v, (encodeRev n v).length = n := by
  induction n with
  | zero => intro v; rfl
  | succ n ih => intro v; simp [encodeRev, ih]

theorem readRev_encodeRev (n : Nat) : ∀ (v : Nat) (rest : List Bool),
    v < 2 ^ n → readRev n (encodeRev n v ++ rest) = some (v, rest) := by
  induction n with
  | zero =>
    intro v rest hv
    interval_cases v
    rfl
  | succ n ih =>
    intro v rest hv
    have hv2 : v / 2 < 2 ^ n := by
      have h2 : v < 2 ^ n * 2 := by rw [← pow_succ]; exact hv
      omega
    rw [encodeRev, List.cons_append, readRev, ih (v / 2) rest hv2]
    have hval : (if v % 2 = 1 then 1 else 0) + 2 * (v / 2) = v := by
      rcases Nat.mod_two_eq_zero_or_one v with h | h <;> simp [h] <;> omega
    simp [hval]

theorem countOnes_encodeUnary : ∀ (limit k : Nat) (rest : List Bool),
    k ≤ limit → countOnes limit (encodeUnary k limit ++ rest) = some (k, rest) := by
  intro limit
  induction limit with
  | zero =>
    intro k rest hk
    interval_cases k
    rfl
  | succ limit ih =>
    intro k rest hk
    match k with
    | 0 => simp [encodeUnary, countOnes]
    | k + 1 =>
      have : encodeUnary (k + 1) (limit + 1) = true :: encodeUnary k limit := by
        simp only [encodeUnary, List.replicate_succ, List.cons_append]
        congr 2
        simp [Nat.succ_lt_succ_iff]
      rw [this]
      simp [countOnes, ih k rest (by omega)]

theorem npGet_nat (out : List Nat) (s : Nat) (h : s < out.length) :
    npGet out (s : Int) = out[s]? := by
  have h0 : ¬ ((s : Int) < 0) := by omega
  have hc : (0 : Int) ≤ (s : Int) ∧ (s : Int) < (out.length : Int) := by
    constructor <;> omega
  simp [npGet, h0, hc, List.getElem?_eq_getElem, h]

theorem npSet_nat (out : List Nat) (d : Nat) (v : Nat) (h : d < out.length) :
    npSet out (d : Int) v = some (out.set d v) := by
  have h0 : ¬ ((d : Int) < 0) := by omega
  have hc : (0 : Int) ≤ (d : Int) ∧ (d : Int) < (out.length : Int) := by
    constructor <;> omega
  simp [npSet, h0, hc]

/-- Auxiliary: stepping a remainder by one either wraps to 0 or
increments. -/
theorem mod_succ_char (i o : Nat) (ho : 0 < o) :
    (i + 1) % o = if i % o + 1 = o then 0 else i % o + 1 := by
  have h := Nat.add_mod i 1 o
  by_cases h1 : o = 1
  · subst h1; simp [Nat.mod_one]
  · have h1m : 1 % o = 1 := Nat.mod_eq_of_lt (by omega)
    rw [h1m] at h
    by_cases hc : i % o + 1 = o
    · rw [if_pos hc, h, hc, Nat.mod_self]
    · have hlt : i % o + 1 < o := by
        have := Nat.mod_lt i ho
        omega
      rw [if_neg hc, h, Nat.mod_eq_of_lt hlt]

/-- Characterisation of the byte-by-byte copy: copying `n` bytes from
source `s` to destination `dst > s` writes, at each destination offset
`i`, the original byte at `s + i % (dst - s)` — for overlapping copies
(`dst - s < n`) the already-copied output is re-read, so the copied block
repeats the `dst - s` bytes preceding the destination — and leaves every
position outside `[dst, dst + n)` untouched. -/
theorem copyBytes_overlap (n : Nat) : ∀ (out : List Nat) (s dst : Nat),
    s < dst → dst + n ≤ out.length →
    ∃ out2, copyBytes out (s : Int) dst n = some out2 ∧
      out2.length = out.length ∧
      (∀ i, i < n → out2[dst + i]? = out[s + i % (dst - s)]?) ∧
      (∀ j, j < dst ∨ dst + n ≤ j → out2[j]? = out[j]?) := by
  induction n with
  | zero =>
    intro out s dst hsd hlen
    exact ⟨out, rfl, rfl, fun i hi => absurd hi (by omega), fun j _ => rfl⟩
  | succ n ih =>
    intro out s dst hsd hlen
    have hs : s < out.length := by omega
    have hd : dst < out.length := by omega
    obtain ⟨out2, hcb, hl2, hin, hfr⟩ :=
      ih (out.set dst out[s]) (s + 1) (dst + 1) (by omega)
        (by rw [List.length_set]; omega)
    have hoo : dst + 1 - (s + 1) = dst - s := by omega
    rw [hoo] at hin
    have hsome : copyBytes out (s : Int) dst (n + 1) = some out2 := by
      rw [copyBytes, npGet_nat out s hs, List.getElem?_eq_getElem hs]
      show (npSet out (dst : Int) out[s]).bind
        (fun o => copyBytes o ((s : Int) + 1) (dst + 1) n) = some out2
      rw [npSet_nat out dst _ hd]
      show copyBytes (out.set dst out[s]) ((s : Int) + 1) (dst + 1) n = some out2
      have hcast : ((s : Int) + 1) = ((s + 1 : Nat) : Int) := by omega
      rw [hcast]
      exact hcb
    refine ⟨out2, hsome, by rw [hl2, List.length_set], ?_, ?_⟩
    · intro i hi
      match i with
      | 0 =>
        have h0 : out2[dst + 0]? = (out.set dst out[s])[dst]? := by
          rw [Nat.add_zero]
          exact hfr dst (Or.inl (by omega))
        rw [h0, List.getElem?_set_eq_of_lt _ hd, Nat.zero_mod, Nat.add_zero,
          List.getElem?_eq_getElem hs]
      | i + 1 =>
        have hstep := hin i (by omega)
        have hidx : dst + (i + 1) = dst + 1 + i := by omega
        rw [hidx, hstep]
        have hmod := mod_succ_char i (dst - s) (by omega)
        by_cases hc : i % (dst - s) + 1 = dst - s
        · have hdst : s + 1 + i % (dst - s) = dst := by omega
          rw [hdst, List.getElem?_set_eq_of_lt _ hd, hmod, if_pos hc,
            Nat.add_zero, List.getElem?_eq_getElem hs]
        · have hmlt : i % (dst - s) < dst - s := Nat.mod_lt i (by omega)
          rw [List.getElem?_set_ne (show dst ≠ s + 1 + i % (dst - s) by omega),
            hmod, if_neg hc]
          have hix : s + 1 + i % (dst - s) = s + (i % (dst - s) + 1) := by omega
          rw [hix]
    · intro j hj
      have h1 : out2[j]? = (out.set dst out[s])[j]? := by
        rcases hj with h | h
        · exact hfr j (Or.inl (by omega))
        · exact hfr j (Or.inr (by omega))
      rw [h1, List.getElem?_set_ne (show dst ≠ j by omega)]

/-- One back-reference step of the decode loop, for a stream carrying a
unary run `k`, offset field `offsetField`, secondary unary run `m < 12`
and extra-length field `add2`: the loop performs the byte-by-byte copy of
`base + (2 ^ m - 1) + add2` bytes at distance `offsetField + bias` and
continues on the remaining bits with both positions advanced. -/
theorem backref_step (k offsetField m add2 : Nat) (rest : List Bool)
    (out : List Nat) (outPos total fuel : Nat)
    (hk : k ≤ 3) (hof : offsetField < 2 ^ (valueBitCount k))
    (hsent : ¬(valueBitCount k = 20 ∧ offsetField = 0xFFFFF))
    (hm : m < 12) (ha : add2 < 2 ^ m) :
    decompressLoop (fuel + 1)
      (true :: (encodeUnary k 3 ++ (encodeRev (valueBitCount k) offsetField ++
        (encodeUnary m 12 ++ (encodeRev m add2 ++ rest))))) out outPos total
    = (copyBytes out
        ((total : Int) - ((offsetField + offsetToAdd k : Nat) : Int)) outPos
        ((if valueBitCount k = 20 then 3 else 2) + (2 ^ m - 1) + add2)).bind
        (fun out2 => decompressLoop fuel rest out2
          (outPos + ((if valueBitCount k = 20 then 3 else 2) + (2 ^ m - 1) + add2))
          (total + ((if valueBitCount k = 20 then 3 else 2) + (2 ^ m - 1) + add2))) := by
  have h1 := countOnes_encodeUnary 3 k
    (encodeRev (valueBitCount k) offsetField ++
      (encodeUnary m 12 ++ (encodeRev m add2 ++ rest))) hk
  have h2 := readRev_encodeRev (valueBitCount k) offsetField
    (encodeUnary m 12 ++ (encodeRev m add2 ++ rest)) hof
  have h3 := countOnes_encodeUnary 12 m (encodeRev m add2 ++ rest) (by omega)
  have h4 := readRev_encodeRev m add2 rest ha
  have hm12 : ¬ (m = 12) := by omega
  simp [decompressLoop, h1, h2, h3, h4, hsent, hm12, Nat.one_shiftLeft]

/-- A back-reference step whose secondary unary run reaches the forbidden
maximum of 12 consecutive 1-bits makes the loop fail (the source
`assert seq_bits_2 != 12`). -/
theorem backref_assert_step (k offsetField : Nat) (rest : List Bool)
    (out : List Nat) (outPos total fuel : Nat)
    (hk : k ≤ 3) (hof : offsetField < 2 ^ (valueBitCount k))
    (hsent : ¬(valueBitCount k = 20 ∧ offsetField = 0xFFFFF)) :
    decompressLoop (fuel + 1)
      (true :: (encodeUnary k 3 ++ (encodeRev (valueBitCount k) offsetField ++
        (encodeUnary 12 12 ++ rest)))) out outPos total = none := by
  have h1 := countOnes_encodeUnary 3 k
    (encodeRev (valueBitCount k) offsetField ++ (encodeUnary 12 12 ++ rest)) hk
  have h2 := readRev_encodeRev (valueBitCount k) offsetField
    (encodeUnary 12 12 ++ rest) hof
  have h3 := countOnes_encodeUnary 12 12 rest (by omega)
  simp [decompressLoop, h1, h2, h3, hsent]

/-- A back-reference step whose offset field is the 20-bit sentinel value
`0xFFFFF` makes the loop return the current output and count at once. -/
theorem sentinel_step (k offsetField : Nat) (rest : List Bool) (out : List Nat)
    (outPos total fuel : Nat) (hk : k ≤ 3)
    (h20 : valueBitCount k = 20) (hOF : offsetField = 0xFFFFF) :
    decompressLoop (fuel + 1)
      (true :: (encodeUnary k 3 ++ (encodeRev (valueBitCount k) offsetField ++ rest)))
      out outPos total = some (out, total) := by
  have h1 := countOnes_encodeUnary 3 k
    (encodeRev (valueBitCount k) offsetField ++ rest) hk
  have h2 := readRev_encodeRev (valueBitCount k) offsetField rest
    (by rw [h20, hOF]; decide)
  have hcond : (valueBitCount k = 20 ∧ offsetField = 0xFFFFF) = True :=
    eq_true ⟨h20, hOF⟩
  simp [decompressLoop, h1, h2, hcond]

set_option maxRecDepth 10000 in
/-- C1: every back-reference step (flag bit 1) with unary run `k ≤ 3`, a
non-sentinel offset field read in `valueBitCount k ∈ {6,9,12,20}` reversed
bits, and secondary unary run `m < 12` copies exactly
`base + (2 ^ m - 1) + add2` bytes (`base = 2`, except `base = 3` when
`valueBitCount k = 20`), one byte at a time, from output position
`pos - (offsetField + {1,65,577,4673}[k])` to output position `pos` —
so position `pos + i` receives the pre-copy byte at
`pos - offset + i % offset`, reproducing repeating patterns on
self-overlap — and in particular a copy with offset 1 and length 5 at a
position whose preceding output byte is `0xAA` appends five `0xAA`
bytes. -/
theorem decompress_backref_copy (k offsetField m add2 : Nat)
    (rest : List Bool) (out : List Nat) (pos fuel : Nat)
    (hk : k ≤ 3) (hof : offsetField < 2 ^ valueBitCount k)
    (hsent : ¬(valueBitCount k = 20 ∧ offsetField = 0xFFFFF))
    (hm : m < 12) (ha : add2 < 2 ^ m)
    (hoffpos : offsetField + offsetToAdd k ≤ pos)
    (hroom : pos + ((if valueBitCount k = 20 then 3 else 2) + (2 ^ m - 1) + add2)
      ≤ out.length) :
    (∃ out2,
      copyBytes out ((pos : Int) - ((offsetField + offsetToAdd k : Nat) : Int)) pos
        ((if valueBitCount k = 20 then 3 else 2) + (2 ^ m - 1) + add2) = some out2 ∧
      decompressLoop (fuel + 1)
        (true :: (encodeUnary k 3 ++ (encodeRev (valueBitCount k) offsetField ++
          (encodeUnary m 12 ++ (encodeRev m add2 ++ rest))))) out pos pos
        = decompressLoop fuel rest out2
            (pos + ((if valueBitCount k = 20 then 3 else 2) + (2 ^ m - 1) + add2))
            (pos + ((if valueBitCount k = 20 then 3 else 2) + (2 ^ m - 1) + add2)) ∧
      out2.length = out.length ∧
      (∀ i, i < (if valueBitCount k = 20 then 3 else 2) + (2 ^ m - 1) + add2 →
        out2[pos + i]? =
          out[(pos - (offsetField + offsetToAdd k)) +
            i % (offsetField + offsetToAdd k)]?) ∧
      (∀ j, j < pos ∨
          pos + ((if valueBitCount k = 20 then 3 else 2) + (2 ^ m - 1) + add2) ≤ j →
        out2[j]? = out[j]?)) ∧
    decompress [0x00, 0x54, 0x03, 0xC6, 0xFF, 0xFF, 0x3F] 8 =
      some [0xAA, 0xAA, 0xAA, 0xAA, 0xAA, 0xAA] := by
  have hO1 : 1 ≤ offsetToAdd k := by
    interval_cases k <;> decide
  have hstep := backref_step k offsetField m add2 rest out pos pos fuel
    hk hof hsent hm ha
  obtain ⟨out2, hcb, hl2, hin, hfr⟩ := copyBytes_overlap
    ((if valueBitCount k = 20 then 3 else 2) + (2 ^ m - 1) + add2)
    out (pos - (offsetField + offsetToAdd k)) pos (by omega) (by omega)
  have hOO : pos - (pos - (offsetField + offsetToAdd k))
      = offsetField + offsetToAdd k := by omega
  rw [hOO] at hin
  have hcast : ((pos : Int) - ((offsetField + offsetToAdd k : Nat) : Int))
      = (((pos - (offsetField + offsetToAdd k)) : Nat) : Int) := by omega
  refine ⟨⟨out2, ?_, ?_, hl2, hin, hfr⟩, by decide⟩
  · rw [hcast]; exact hcb
  · rw [hstep, hcast, hcb]; rfl

/-- C1 witness: the theorem applied at `k = 0`, `offsetField = 0`,
`m = 2`, `add2 = 0` at position 1 of an 8-byte output buffer. -/
theorem decompress_backref_copy_witness :
    decompress [0x00, 0x54, 0x03, 0xC6, 0xFF, 0xFF, 0x3F] 8 =
      some [0xAA, 0xAA, 0xAA, 0xAA, 0xAA, 0xAA] :=
  (decompress_backref_copy 0 0 2 0 [] [0, 0, 0, 0, 0, 0, 0, 0] 1 0
    (by decide) (by decide) (by decide) (by decide) (by decide)
    (by decide) (by decide)).2

set_option maxRecDepth 100000 in
/-- C4: a back-reference step that reads `value_bit_count = 20` and
`offset_field = 0xFFFFF` stops the decode loop immediately: whatever bits
remain, the loop returns the current output and decoded count unchanged,
so the output is exactly the bytes produced before the sentinel; the
source's own test vector (one literal plus one copy, then the sentinel
followed by trailing 1-bits) decodes to its expected 32 bytes with the
trailing bits discarded. -/
theorem decompress_sentinel_terminates (rest : List Bool) (out : List Nat)
    (outPos total fuel : Nat) :
    decompressLoop (fuel + 1)
      (true :: (encodeUnary 3 3 ++ (encodeRev 20 0xFFFFF ++ rest))) out outPos total
      = some (out, total) ∧
    decompress
      [0x00, 0x40, 0x00, 0x04, 0x10, 0xD0, 0x90, 0x80, 0x42, 0xED, 0x98, 0x01,
       0xB7, 0xFF, 0xFF, 0xFF, 0xFF, 0xFF, 0xFF] 256 =
    some [0x20, 0, 0, 0, 1, 0, 0, 0, 0, 0, 0, 0, 0xA8, 0, 0, 0, 0, 0, 0, 0,
          0, 0, 0, 0, 0, 0, 0, 0, 0, 0, 0, 0] := by
  exact ⟨sentinel_step 3 0xFFFFF rest out outPos total fuel (by decide) rfl rfl,
    by decide⟩

/-- C5: a back-reference step whose secondary unary run reaches the
maximal length 12 makes `decompress` fail (the loop aborts with no
result), while a run `m < 12` continues normally with the copy length
extended by `(2 ^ m - 1) + read_rev(m)`. -/
theorem decompress_secondary_run_guard (k offsetField m add2 : Nat)
    (rest rest2 : List Bool) (out : List Nat) (outPos total fuel : Nat)
    (hk : k ≤ 3) (hof : offsetField < 2 ^ valueBitCount k)
    (hsent : ¬(valueBitCount k = 20 ∧ offsetField = 0xFFFFF))
    (hm : m < 12) (ha : add2 < 2 ^ m) :
    decompressLoop (fuel + 1)
      (true :: (encodeUnary k 3 ++ (encodeRev (valueBitCount k) offsetField ++
        (encodeUnary 12 12 ++ rest2)))) out outPos total = none ∧
    decompressLoop (fuel + 1)
      (true :: (encodeUnary k 3 ++ (encodeRev (valueBitCount k) offsetField ++
        (encodeUnary m 12 ++ (encodeRev m add2 ++ rest))))) out outPos total
      = (copyBytes out
          ((total : Int) - ((offsetField + offsetToAdd k : Nat) : Int)) outPos
          ((if valueBitCount k = 20 then 3 else 2) + (2 ^ m - 1) + add2)).bind
          (fun out2 => decompressLoop fuel rest out2
            (outPos + ((if valueBitCount k = 20 then 3 else 2) + (2 ^ m - 1) + add2))
            (total + ((if valueBitCount k = 20 then 3 else 2) + (2 ^ m - 1) + add2))) :=
  ⟨backref_assert_step k offsetField rest2 out outPos total fuel hk hof hsent,
   backref_step k offsetField m add2 rest out outPos total fuel hk hof hsent hm ha⟩

/-- C5 witness: the guard fires on a concrete one-step stream with
`k = 0`, `offsetField = 0` and twelve consecutive 1-bits. -/
theorem decompress_secondary_run_guard_witness :
    decompressLoop 1
      (true :: (encodeUnary 0 3 ++ (encodeRev (valueBitCount 0) 0 ++
        (encodeUnary 12 12 ++ [])))) [0] 0 0 = none :=
  (decompress_secondary_run_guard 0 0 0 0 [] [] [0] 0 0 0
    (by decide) (by decide) (by decide) (by decide) (by decide)).1

/-- Rows cut by `buildRows` are the `w`-byte slices of the flat list at
offsets `0, w, 2w, ...`. -/
theorem buildRows_eq (h : Nat) : ∀ (l : List Nat) (w : Nat),
    buildRows l h w = (List.range h).map fun r => (l.drop (r * w)).take w := by
  induction h with
  | zero => intro l w; rfl
  | succ h ih =>
    intro l w
    rw [buildRows, List.range_succ_eq_map, List.map_cons, List.map_map]
    simp only [Nat.zero_mul, List.drop_zero]
    congr 1
    rw [ih (l.drop w) w]
    apply List.map_congr_left
    intro r _
    simp only [Function.comp_apply, List.drop_drop]
    congr 2
    rw [Nat.succ_eq_add_one]
    ring

/-- Reversing a list built over `List.range` re-indexes it by
`r ↦ h - 1 - r`. -/
theorem reverse_map_range (h : Nat) (f : Nat → List Nat) :
    ((List.range h).map f).reverse = (List.range h).map fun r => f (h - 1 - r) := by
  rw [← List.map_reverse]
  have hre : (List.range h).reverse = (List.range h).map fun x => h - 1 - x := by
    rw [List.range_eq_range', List.reverse_range']
    simp [← List.range_eq_range']
  rw [hre, List.map_map]
  apply List.map_congr_left
  intro r _
  simp

/-- C2 fails as stated: on the uncompressed 8-byte stream
`[0,1,2,3,4,5,6,7]` with declared size `(2, 2)` and no extra width
(stride 4 under the claim), the claimed stride reconstruction — rows of
`(w + 3) & ~3` bytes, per-row padding discarded, flipped — yields
`[[4,5],[0,1]]`, but the code truncates the flat stream to the first
`w * h = 4` bytes and yields `[[2,3],[0,1]]`. -/
theorem decompress_paletted_image_stride_counterexample :
    decompress_paletted_image [0, 1, 2, 3, 4, 5, 6, 7] (2, 2) false 0
        = some [[2, 3], [0, 1]] ∧
    claimedStrideReconstruct [0, 1, 2, 3, 4, 5, 6, 7] (2, 2) false 0
        = some [[4, 5], [0, 1]] ∧
    decompress_paletted_image [0, 1, 2, 3, 4, 5, 6, 7] (2, 2) false 0
        ≠ claimedStrideReconstruct [0, 1, 2, 3, 4, 5, 6, 7] (2, 2) false 0 := by
  refine ⟨by decide, by decide, by decide⟩

/-- Reshaping a flat list into `h` rows of `w` and reversing the rows is
the indexed bottom-to-top slicing, and fails exactly when the length is
not `h * w`. -/
theorem reshape_flip_eq (flat : List Nat) (h w : Nat) :
    (reshape flat h w).bind (fun rows => some rows.reverse)
      = if flat.length = h * w then
          some ((List.range h).map fun r => (flat.drop ((h - 1 - r) * w)).take w)
        else none := by
  unfold reshape
  by_cases hl : flat.length = h * w
  · rw [if_pos hl, if_pos hl]
    show some _ = some _
    rw [buildRows_eq, reverse_map_range]
  · rw [if_neg hl, if_neg hl]
    rfl

/-- Congruence of `Option.bind` in the function argument. -/
theorem opt_bind_congr {α β : Type} (o : Option α) (f g : α → Option β)
    (hfg : ∀ a, f a = g a) : o.bind f = o.bind g := by
  cases o <;> simp [hfg]

/-- C2 amended: `decompress_paletted_image` bounds the decompression
output by `((w + extra_width + 3) & 0xfc) * height` (the mask `0xfc`
truncates above bit 7, so for `w + 3 ≥ 256` the bound differs from
`(w + 3) & ~3`), truncates the flat byte stream globally to its first
`w * height` bytes (it does not discard per-row stride padding), cuts it
into `height` rows of `w` consecutive bytes, and flips the rows
vertically; the uncompressed path applies the same truncation, reshape
and flip to the raw bytes. -/
theorem decompress_paletted_image_flat_semantics (data : List Nat)
    (size : Nat × Nat) (compressed : Bool) (extra_width : Nat) :
    decompress_paletted_image data size compressed extra_width
      = flatReconstruct data size compressed extra_width := by
  unfold decompress_paletted_image flatReconstruct
  cases compressed
  · exact reshape_flip_eq _ _ _
  · exact opt_bind_congr _ _ _ (fun dec => reshape_flip_eq _ _ _)

/-- C3: when the cursor holds two 4-byte values `(address, size)`,
`Buffer.locator` fails with an out-of-bounds `IndexError` whenever
`address + size` exceeds the absolute backing array (before any view into
it is formed), and otherwise returns a view whose bytes are exactly
`root[address : address + size]` (of length exactly `size`), rooted at
the same backing array with absolute offset `address`, while the receiver
just advances its cursor by 8. -/
theorem locator_bounds (b : Buffer) (address size : Nat)
    (h8 : b.pos + 8 ≤ b.mv.length)
    (haddr : address = fromBytesLE ((b.mv.drop b.pos).take 4))
    (hsize : size = fromBytesLE ((b.mv.drop (b.pos + 4)).take 4)) :
    (b.root.length < address + size →
      b.locator = .error "IndexError: ACSLOCATOR out of range") ∧
    (address + size ≤ b.root.length →
      b.locator = .ok (⟨(b.root.drop address).take size, b.root, address, 0⟩,
        b.skip 8) ∧
      ((b.root.drop address).take size).length = size) := by
  have hloc : b.locator = if address + size > b.root.length
      then .error "IndexError: ACSLOCATOR out of range"
      else .ok (⟨(b.root.drop address).take size, b.root, address, 0⟩, b.skip 8) := by
    rw [haddr, hsize]
    rfl
  constructor
  · intro hover
    rw [hloc, if_pos hover]
  · intro hin
    refine ⟨by rw [hloc, if_neg (by omega)], ?_⟩
    rw [List.length_take, List.length_drop]
    omega

/-- C3 witness: the theorem applied to a 13-byte backing array whose
cursor reads the locator `(2, 3)`. -/
theorem locator_bounds_witness :
    Buffer.locator ⟨[2, 0, 0, 0, 3, 0, 0, 0, 9, 9, 9, 9, 9],
        [2, 0, 0, 0, 3, 0, 0, 0, 9, 9, 9, 9, 9], 0, 0⟩
      = .ok (⟨(([2, 0, 0, 0, 3, 0, 0, 0, 9, 9, 9, 9, 9] : List Nat).drop 2).take 3,
          [2, 0, 0, 0, 3, 0, 0, 0, 9, 9, 9, 9, 9], 2, 0⟩,
        Buffer.skip ⟨[2, 0, 0, 0, 3, 0, 0, 0, 9, 9, 9, 9, 9],
          [2, 0, 0, 0, 3, 0, 0, 0, 9, 9, 9, 9, 9], 0, 0⟩ 8) ∧
    ((([2, 0, 0, 0, 3, 0, 0, 0, 9, 9, 9, 9, 9] : List Nat).drop 2).take 3).length = 3 :=
  (locator_bounds ⟨[2, 0, 0, 0, 3, 0, 0, 0, 9, 9, 9, 9, 9],
      [2, 0, 0, 0, 3, 0, 0, 0, 9, 9, 9, 9, 9], 0, 0⟩ 2 3
    (by decide) (by decide) (by decide)).2 (by decide)

/-- C10: when `pos + length` runs past the end of the view,
`Buffer.read_bytes` does not fail: it returns the clamped slice
`mv[pos : pos + length]` — of `min length (size - pos)` bytes, strictly
fewer than `length` whenever `length > 0`, and empty once `pos` is at or
past the end — while still advancing `pos` by the full `length`;
`read_integer` then decodes whatever bytes remain (0 from an empty
slice); only the single-byte `read` raises `IndexError`, exactly when the
cursor is at or past the end. -/
theorem read_bytes_truncates (b : Buffer) (length : Nat)
    (hover : b.mv.length < b.pos + length) :
    (b.read_bytes length).1 = (b.mv.drop b.pos).take length ∧
    (b.read_bytes length).2 = { b with pos := b.pos + length } ∧
    (b.read_bytes length).1.length = min length (b.mv.length - b.pos) ∧
    (0 < length → (b.read_bytes length).1.length < length) ∧
    (b.mv.length ≤ b.pos → (b.read_bytes length).1 = []) ∧
    (b.read_integer length).1 = fromBytesLE ((b.mv.drop b.pos).take length) ∧
    (b.mv.length ≤ b.pos → (b.read_integer length).1 = 0) ∧
    (b.read = .error "IndexError" ↔ b.mv.length ≤ b.pos) := by
  have hlen : (b.read_bytes length).1.length = min length (b.mv.length - b.pos) := by
    simp [Buffer.read_bytes]
  have hnil : b.mv.length ≤ b.pos → (b.read_bytes length).1 = [] := by
    intro hp
    simp [Buffer.read_bytes, List.drop_eq_nil_of_le hp]
  refine ⟨rfl, rfl, hlen, ?_, hnil, rfl, ?_, ?_⟩
  · intro h0
    rw [hlen]
    omega
  · intro hp
    show fromBytesLE (b.read_bytes length).1 = 0
    rw [hnil hp]
    rfl
  · unfold Buffer.read
    by_cases h : b.pos < b.mv.length
    · rw [dif_pos h]
      constructor
      · intro he
        cases he
      · intro hle
        omega
    · rw [dif_neg h]
      constructor
      · intro _
        omega
      · intro _
        rfl

/-- C10 witness: the theorem applied to a 3-byte buffer at position 2
with a 5-byte read request. -/
theorem read_bytes_truncates_witness :
    ((⟨[1, 2, 3], [1, 2, 3], 0, 2⟩ : Buffer).read_bytes 5).1.length < 5 :=
  (read_bytes_truncates ⟨[1, 2, 3], [1, 2, 3], 0, 2⟩ 5 (by decide)).2.2.2.1
    (by decide)

theorem cumProb_cons_zero (br : BranchInfo) (rest : List BranchInfo) :
    cumProb (br :: rest) 0 = br.prob_percent := by
  simp [cumProb]

theorem cumProb_cons_succ (br : BranchInfo) (rest : List BranchInfo) (i : Nat) :
    cumProb (br :: rest) (i + 1) = br.prob_percent + cumProb rest i := by
  simp [cumProb]

/-- The accumulation loop returns `none` exactly when no cumulative
probability (shifted by the accumulator) exceeds the drawn value. -/
theorem pickLoop_none_iff (bs : List BranchInfo) : ∀ (acc v : Nat),
    (pickLoop acc v bs = none ↔
      ∀ i, i < bs.length → acc + cumProb bs i ≤ v) := by
  induction bs with
  | nil =>
    intro acc v
    simp [pickLoop]
  | cons br rest ih =>
    intro acc v
    rw [pickLoop]
    by_cases hv : v < acc + br.prob_percent
    · rw [if_pos hv]
      constructor
      · intro h
        cases h
      · intro h
        exfalso
        have h0 := h 0 (by simp)
        rw [cumProb_cons_zero] at h0
        omega
    · rw [if_neg hv, ih (acc + br.prob_percent) v]
      constructor
      · intro h i hi
        match i with
        | 0 =>
          rw [cumProb_cons_zero]
          omega
        | i + 1 =>
          rw [cumProb_cons_succ]
          have := h i (by simp at hi; omega)
          omega
      · intro h i hi
        have hsucc := h (i + 1) (by simp; omega)
        rw [cumProb_cons_succ] at hsucc
        omega

/-- The accumulation loop returns `some t` exactly when `t` is the jump
target of the first branch whose shifted cumulative probability exceeds
the drawn value. -/
theorem pickLoop_some_iff (bs : List BranchInfo) : ∀ (acc v t : Nat),
    (pickLoop acc v bs = some t ↔
      ∃ i, i < bs.length ∧ v < acc + cumProb bs i ∧
        t = (bs.getD i ⟨0, 0⟩).jump_target_idx ∧
        ∀ j, j < i → acc + cumProb bs j ≤ v) := by
  induction bs with
  | nil =>
    intro acc v t
    simp [pickLoop]
  | cons br rest ih =>
    intro acc v t
    rw [pickLoop]
    by_cases hv : v < acc + br.prob_percent
    · rw [if_pos hv]
      constructor
      · intro h
        refine ⟨0, by simp, by rw [cumProb_cons_zero]; omega, ?_, by omega⟩
        simpa using (Option.some_inj.mp h).symm
      · rintro ⟨i, hi, hlt, ht, hmin⟩
        match i with
        | 0 =>
          simpa using ht.symm
        | i + 1 =>
          exfalso
          have h0 := hmin 0 (by omega)
          rw [cumProb_cons_zero] at h0
          omega
    · rw [if_neg hv, ih (acc + br.prob_percent) v t]
      constructor
      · rintro ⟨i, hi, hlt, ht, hmin⟩
        refine ⟨i + 1, by simp; omega, by rw [cumProb_cons_succ]; omega,
          by simpa using ht, ?_⟩
        intro j hj
        match j with
        | 0 =>
          rw [cumProb_cons_zero]
          omega
        | j + 1 =>
          rw [cumProb_cons_succ]
          have := hmin j (by omega)
          omega
      · rintro ⟨i, hi, hlt, ht, hmin⟩
        match i with
        | 0 =>
          exfalso
          rw [cumProb_cons_zero] at hlt
          omega
        | i + 1 =>
          refine ⟨i, by simp at hi; omega, by rw [cumProb_cons_succ] at hlt; omega,
            by simpa using ht, ?_⟩
          intro j hj
          have := hmin (j + 1) (by omega)
          rw [cumProb_cons_succ] at this
          omega

/-- C6: for a frame with branch list `[(t_1,p_1),...,(t_n,p_n)]` and a
drawn value `v < 100`, `pick_jump_destination` returns the target of the
first branch (in declared order) whose cumulative probability
`p_1 + ... + p_i` exceeds `v`, and `none` when no cumulative probability
exceeds `v`; in particular for branches `[(3,30),(7,40)]` a draw of 10
yields 3, a draw of 35 yields 7 and a draw of 75 yields `none`. -/
theorem pick_jump_destination_first_exceeding (f : FrameInfo) (v : Nat)
    (hv : v < 100) :
    (f.pick_jump_destination v = none ↔
      ∀ i, i < f.branch_infos.length → cumProb f.branch_infos i ≤ v) ∧
    (∀ t, f.pick_jump_destination v = some t ↔
      ∃ i, i < f.branch_infos.length ∧ v < cumProb f.branch_infos i ∧
        t = (f.branch_infos.getD i ⟨0, 0⟩).jump_target_idx ∧
        ∀ j, j < i → cumProb f.branch_infos j ≤ v) ∧
    FrameInfo.pick_jump_destination ⟨[], 0, 0, 0, [⟨3, 30⟩, ⟨7, 40⟩]⟩ 10 = some 3 ∧
    FrameInfo.pick_jump_destination ⟨[], 0, 0, 0, [⟨3, 30⟩, ⟨7, 40⟩]⟩ 35 = some 7 ∧
    FrameInfo.pick_jump_destination ⟨[], 0, 0, 0, [⟨3, 30⟩, ⟨7, 40⟩]⟩ 75 = none := by
  refine ⟨?_, ?_, by decide, by decide, by decide⟩
  · have h := pickLoop_none_iff f.branch_infos 0 v
    simpa [FrameInfo.pick_jump_destination] using h
  · intro t
    have h := pickLoop_some_iff f.branch_infos 0 v t
    simpa [FrameInfo.pick_jump_destination] using h

/-- C6 witness: the theorem applied to the frame with branches
`[(3,30),(7,40)]` and the draw 10. -/
theorem pick_jump_destination_first_exceeding_witness :
    FrameInfo.pick_jump_destination ⟨[], 0, 0, 0, [⟨3, 30⟩, ⟨7, 40⟩]⟩ 10 = some 3 :=
  (pick_jump_destination_first_exceeding ⟨[], 0, 0, 0, [⟨3, 30⟩, ⟨7, 40⟩]⟩ 10
    (by decide)).2.2.1

/-- C7 fails as stated: for source palette row `[1,2,3,9]` at the
transparency index 0, the claim predicts the reordered colour with zero
alpha, `[3,2,1,0]`, but `CharacterInfo.__init__` zeroes the whole row:
the stored entry is `[0,0,0,0]`. -/
theorem convertPalette_transparent_row_counterexample :
    convertPalette [[1, 2, 3, 9]] 0 = [[0, 0, 0, 0]] ∧
    ([[0, 0, 0, 0]] : List (List Nat)) ≠ [[3, 2, 1, 0]] :=
  ⟨by decide, by decide⟩

/-- C7 amended: after the palette conversion, every row other than the
transparency index holds the source row's first three bytes reordered
from BGR to RGB with alpha forced to 255, while the row at the
transparency index is zeroed entirely — all four components become 0, the
colour components are not kept.  Precondition: the transparency index is
a valid row index. -/
theorem convertPalette_rows (srcRows : List (List Nat)) (ti i : Nat)
    (hti : ti < srcRows.length) (hi : i < srcRows.length) :
    (convertPalette srcRows ti).length = srcRows.length ∧
    (i ≠ ti → (convertPalette srcRows ti)[i]? =
      some [(srcRows.getD i []).getD 2 0, (srcRows.getD i []).getD 1 0,
            (srcRows.getD i []).getD 0 0, 255]) ∧
    (i = ti → (convertPalette srcRows ti)[i]? = some [0, 0, 0, 0]) := by
  unfold convertPalette
  refine ⟨by simp, ?_, ?_⟩
  · intro hne
    rw [List.getElem?_set_ne (fun he => hne he.symm), List.getElem?_map,
      List.getElem?_eq_getElem hi, List.getD_eq_getElem srcRows [] hi]
    rfl
  · intro he
    subst he
    exact List.getElem?_set_eq_of_lt _ (by simp [hti])

/-- C7 witness: the theorem applied to a two-row palette with
transparency index 0, at row 1. -/
theorem convertPalette_rows_witness :
    (convertPalette [[1, 2, 3, 9], [10, 20, 30, 40]] 0)[1]?
      = some [30, 20, 10, 255] :=
  (convertPalette_rows [[1, 2, 3, 9], [10, 20, 30, 40]] 0 1
    (by decide) (by decide)).2.1 (by decide)

/-- C8 fails as stated: a decoded `ulong` length field of exactly 65536 —
not strictly above the claimed ceiling of 65536 — still trips the
corruption guard, because the source checks `length >= 65536`. -/
theorem read_list_ceiling_counterexample :
    (Buffer.read_ulong ⟨[0, 0, 1, 0], [0, 0, 1, 0], 0, 0⟩).1 = 65536 ∧
    ¬ ((65536 : Nat) > 65536) ∧
    Buffer.read_list Buffer.read .ulong none ⟨[0, 0, 1, 0], [0, 0, 1, 0], 0, 0⟩
      = .error "ValueError: length too large" :=
  ⟨rfl, by decide, rfl⟩

/-- C8 amended: the guard compares the decoded length after the optional
`limit` clamp against the ceiling with `>=`: an effective length of
65536 or more makes `read_list` fail fast with a `ValueError` before any
element is read (the result is this error for every element reader),
and an effective length strictly below 65536 proceeds to read exactly
that many elements. -/
theorem read_list_sanity_ceiling {α : Type}
    (elemReader : Buffer → Except String (α × Buffer))
    (countType : Buffer.CountType) (limit : Option Nat) (b b2 : Buffer)
    (lenRaw : Nat)
    (hdec : (match countType with
      | .byte => b.read
      | .ushort => .ok b.read_ushort
      | .ulong => .ok b.read_ulong) = .ok (lenRaw, b2)) :
    ((match limit with | some l => min l lenRaw | none => lenRaw) ≥ 65536 →
      Buffer.read_list elemReader countType limit b
        = .error "ValueError: length too large") ∧
    ((match limit with | some l => min l lenRaw | none => lenRaw) < 65536 →
      Buffer.read_list elemReader countType limit b
        = Buffer.readN elemReader
            (match limit with | some l => min l lenRaw | none => lenRaw) b2) := by
  have hred : Buffer.read_list elemReader countType limit b
      = Buffer._read_list elemReader
          (match limit with | some l => min l lenRaw | none => lenRaw) b2 := by
    cases countType with
    | byte =>
      have h2 : b.read = Except.ok (lenRaw, b2) := hdec
      unfold Buffer.read_list
      rw [h2]
      rfl
    | ushort =>
      have h2 : (Except.ok b.read_ushort : Except String (Nat × Buffer))
          = Except.ok (lenRaw, b2) := hdec
      have h3 : b.read_ushort = (lenRaw, b2) := by
        injection h2
      unfold Buffer.read_list
      rw [h3]
      rfl
    | ulong =>
      have h2 : (Except.ok b.read_ulong : Except String (Nat × Buffer))
          = Except.ok (lenRaw, b2) := hdec
      have h3 : b.read_ulong = (lenRaw, b2) := by
        injection h2
      unfold Buffer.read_list
      rw [h3]
      rfl
  constructor
  · intro hbig
    rw [hred]
    unfold Buffer._read_list
    rw [if_pos hbig]
  · intro hsmall
    rw [hred]
    unfold Buffer._read_list
    rw [if_neg (by omega)]

/-- C8 witness: the theorem applied to a buffer whose `ulong` count field
decodes to 131072, with the single-byte reader. -/
theorem read_list_sanity_ceiling_witness :
    Buffer.read_list Buffer.read .ulong none ⟨[0, 0, 2, 0], [0, 0, 2, 0], 0, 0⟩
      = .error "ValueError: length too large" :=
  (read_list_sanity_ceiling Buffer.read .ulong none
    ⟨[0, 0, 2, 0], [0, 0, 2, 0], 0, 0⟩ ⟨[0, 0, 2, 0], [0, 0, 2, 0], 0, 4⟩
    131072 rfl).1 (by decide)

/-- Bind of an ok value in the `Except` monad reduces to the
continuation. -/
theorem except_bind_ok {ε α β : Type} (a : α) (f : α → Except ε β) :
    (Except.ok a : Except ε α) >>= f = f a := rfl

/-- C9 fails as stated: in `c9Root` the outer name and the internally
decoded name are both the single code unit 97 — identical strings, which
in particular differ only in letter case — yet `anim_info` emits the
mismatch warning, because the source compares `name.upper()` (here
`[65]`) against the raw inner name (`[97]`). -/
theorem anim_info_case_counterexample :
    (Buffer.read_string ⟨c9Root, c9Root, 0, 0⟩).1 = [97] ∧
    anim_info ⟨c9Root, c9Root, 0, 0⟩
      = .ok (true, ⟨[97], 2, [], []⟩, ⟨c9Root, c9Root, 0, 16⟩) :=
  ⟨rfl, rfl⟩

/-- C9 amended: `anim_info` uppercases the outer name only and compares
it verbatim against the internally decoded name: the warning condition is
`name.upper() ≠ inner` (so no warning exactly when the inner name equals
the uppercased outer name; an inner name that matches the outer name only
up to lowering still warns).  The comparison is never fatal, and the
returned record carries the internally decoded name — the inner name
wins. -/
theorem anim_info_upper_outer (buf buf2 sub buf3 b5 : Buffer)
    (name : KStr) (info : AnimInfo)
    (hname : buf.read_string = (name, buf2))
    (hloc : buf2.locator = .ok (sub, buf3))
    (hinit : animInfoInit sub = .ok (info, b5)) :
    anim_info buf = .ok (upperStr name ≠ info.name, info, buf3) ∧
    (upperStr name = info.name → anim_info buf = .ok (false, info, buf3)) ∧
    (upperStr name ≠ info.name → anim_info buf = .ok (true, info, buf3)) := by
  have hmain : anim_info buf = .ok (upperStr name ≠ info.name, info, buf3) := by
    unfold anim_info
    rw [hname]
    show buf2.locator >>= _ = _
    rw [hloc, except_bind_ok]
    show animInfoInit sub >>= _ = _
    rw [hinit, except_bind_ok]
  refine ⟨hmain, ?_, ?_⟩
  · intro he
    rw [hmain]
    simp [he]
  · intro hne
    rw [hmain]
    simp [hne]

/-- C9 witness: the theorem applied to `c9RootUpper`, whose inner name is
the uppercased outer name, so no warning is emitted and the inner name is
returned. -/
theorem anim_info_upper_outer_witness :
    anim_info ⟨c9RootUpper, c9RootUpper, 0, 0⟩
      = .ok (false, ⟨[65], 2, [], []⟩, ⟨c9RootUpper, c9RootUpper, 0, 16⟩) :=
  (anim_info_upper_outer ⟨c9RootUpper, c9RootUpper, 0, 0⟩
    ⟨c9RootUpper, c9RootUpper, 0, 8⟩
    ⟨[1, 0, 0, 0, 65, 0, 0, 0, 2, 0, 0, 0, 0, 0, 0], c9RootUpper, 16, 0⟩
    ⟨c9RootUpper, c9RootUpper, 0, 16⟩
    ⟨[1, 0, 0, 0, 65, 0, 0, 0, 2, 0, 0, 0, 0, 0, 0], c9RootUpper, 16, 15⟩
    [97] ⟨[65], 2, [], []⟩ rfl rfl rfl).2.1 rfl

end Kairu
